import Mathlib

/-!
Verification development for the custom Metropolis-Hastings MCMC engine of
the Spectractor repository (`spectractor/extractor.py`, class `Extractor_MCMC`).

Floating-point arithmetic of the source is modelled over the real numbers,
except where a claim is specifically about IEEE non-finite values, for which a
small extended-value type `FVal` mirrors numpy's `exp` and comparison
semantics.  The helper classes `Chain` / `Chains` come from the external
`mcmc` module (not part of this repository's sources); the few facts needed
about them are modelled from the specification and marked as such.
-/

open Classical

namespace Spectractor

/-- Parameter vectors of fixed dimension `D` (numpy 1-d arrays of floats). -/
abbrev Vec (D : ℕ) := Fin D → ℝ

/-- Embeds `Extractor_MCMC.prior` (extractor.py lines 204-213): walk the
vector, and if some entry is strictly below its lower bound or strictly above
its upper bound the vector is out of bounds; return `1.0` when in bounds and
`0.` otherwise. -/
noncomputable def prior {D : ℕ} (low high : Vec D) (p : Vec D) : ℝ :=
  if ∀ i : Fin D, ¬ (p i < low i ∨ p i > high i) then 1.0 else 0.0

/-- Embeds the acceptance test of `Extractor_MCMC.mcmc` (extractor.py line
303): the candidate is accepted when `np.exp(-0.5 * (chisq2 - chisq1)) > r`. -/
def accept (chisq1 chisq2 r : ℝ) : Prop :=
  Real.exp (-0.5 * (chisq2 - chisq1)) > r

/-- Embeds extractor.py lines 291-294: the candidate's cost is the value of
the cost callable when `prior2 > 1e-10`, and the sentinel `1e20` otherwise. -/
noncomputable def candCost {D : ℕ} (low high : Vec D) (chisqFn : Vec D → ℝ)
    (vec2 : Vec D) : ℝ :=
  if prior low high vec2 > (1e-10 : ℝ) then chisqFn vec2 else (1e20 : ℝ)

/-- One persisted record of a chain's log: the global key passed to
`chain.newrow`, the local step index `i`, and the cost and vector recorded by
`chain.make_dictline` (extractor.py lines 304-310). -/
structure Row (D : ℕ) where
  key : ℕ
  step : ℕ
  cost : ℝ
  vec : Vec D

/-- Post-decision data of one loop iteration: the new current vector, the new
current cost, and the row recorded for this step. -/
structure StepRes (D : ℕ) where
  vec : Vec D
  chisq : ℝ
  row : Row D

/-- Embeds one iteration of the loop of `Extractor_MCMC.mcmc` (extractor.py
lines 282-310), given the drawn candidate `vec2` and the uniform draw `r`:
compute the candidate cost, run the acceptance test, and build the row
(`make_dictline` of the accepted data on acceptance, of the unchanged current
data on rejection), keyed `i + nchain * nsteps`. -/
noncomputable def mcmcStep {D : ℕ} (low high : Vec D) (chisqFn : Vec D → ℝ)
    (nchain nsteps i : ℕ) (vec1 : Vec D) (chisq1 : ℝ) (vec2 : Vec D) (r : ℝ) :
    StepRes D :=
  if accept chisq1 (candCost low high chisqFn vec2) r then
    ⟨vec2, candCost low high chisqFn vec2,
      ⟨i + nchain * nsteps, i, candCost low high chisqFn vec2, vec2⟩⟩
  else
    ⟨vec1, chisq1, ⟨i + nchain * nsteps, i, chisq1, vec1⟩⟩

/-- The per-chain stream of pseudo-random draws: at loop index `i`, `draw i v`
is the proposal `chain.draw_vector(v)` and `unif i` the uniform sample
`np.random.uniform(0, 1)`.  The stream is fixed once the generator is seeded. -/
structure RandStream (D : ℕ) where
  draw : ℕ → Vec D → Vec D
  unif : ℕ → ℝ

/-- Embeds the main loop of `Extractor_MCMC.mcmc` (extractor.py lines
277-317) over an explicit list of loop indices: each iteration draws a
candidate and a uniform value, runs `mcmcStep`, records exactly one row and
continues from the post-decision state. -/
noncomputable def mcmcLoop {D : ℕ} (low high : Vec D) (chisqFn : Vec D → ℝ)
    (nchain nsteps : ℕ) (rs : RandStream D) :
    List ℕ → Vec D → ℝ → List (Row D)
  | [], _, _ => []
  | i :: ks, vec1, chisq1 =>
    let s := mcmcStep low high chisqFn nchain nsteps i vec1 chisq1
      (rs.draw i vec1) (rs.unif i)
    s.row :: mcmcLoop low high chisqFn nchain nsteps rs ks s.vec s.chisq

/-- Embeds `keys = range(chain.start_index, chain.nsteps)` (extractor.py line
274) followed by the loop: the walk from local index `start` to
`nsteps - 1` starting at state `(vec1, chisq1)`. -/
noncomputable def mcmcWalk {D : ℕ} (low high : Vec D) (chisqFn : Vec D → ℝ)
    (nchain nsteps : ℕ) (rs : RandStream D) (start : ℕ) (vec1 : Vec D)
    (chisq1 : ℝ) : List (Row D) :=
  mcmcLoop low high chisqFn nchain nsteps rs
    (List.range' start (nsteps - start)) vec1 chisq1

/-- The loop appends exactly one row per iteration. -/
theorem mcmcLoop_length {D : ℕ} (low high : Vec D) (chisqFn : Vec D → ℝ)
    (nchain nsteps : ℕ) (rs : RandStream D) :
    ∀ (ks : List ℕ) (v : Vec D) (c : ℝ),
      (mcmcLoop low high chisqFn nchain nsteps rs ks v c).length = ks.length := by
  intro ks
  induction ks with
  | nil => intro v c; rfl
  | cons i ks ih =>
    intro v c
    simp only [mcmcLoop, List.length_cons]
    rw [ih]

/-- Every row produced by the loop carries its loop index as `step` and is
keyed `step + nchain * nsteps`; the steps recorded are exactly the loop
indices, in order. -/
theorem mcmcLoop_steps {D : ℕ} (low high : Vec D) (chisqFn : Vec D → ℝ)
    (nchain nsteps : ℕ) (rs : RandStream D) :
    ∀ (ks : List ℕ) (v : Vec D) (c : ℝ),
      (mcmcLoop low high chisqFn nchain nsteps rs ks v c).map Row.step = ks ∧
      ∀ row ∈ mcmcLoop low high chisqFn nchain nsteps rs ks v c,
        row.key = row.step + nchain * nsteps := by
  intro ks
  induction ks with
  | nil => intro v c; exact ⟨rfl, by intro row h; cases h⟩
  | cons i ks ih =>
    intro v c
    simp only [mcmcLoop, List.map_cons, List.mem_cons]
    constructor
    · have hstep : (mcmcStep low high chisqFn nchain nsteps i v c
          (rs.draw i v) (rs.unif i)).row.step = i := by
        unfold mcmcStep
        split <;> rfl
      rw [hstep, (ih _ _).1]
    · intro row hrow
      rcases hrow with h | h
      · subst h
        unfold mcmcStep
        split <;> rfl
      · exact (ih _ _).2 row h

/-- A chain as consumed by `Extractor_MCMC.mcmc`: its index, configured step
count, resumption cursor and starting vector, the fields read by extractor.py
lines 256-274 (`chain.nchain`, `chain.nsteps`, `chain.start_key`,
`chain.start_index`, `chain.start_vec`). -/
structure Chain (D : ℕ) where
  nchain : ℕ
  nsteps : ℕ
  start_key : ℤ
  start_index : ℕ
  start_vec : Vec D

/-- Modelled from the spec: the `Chain` constructor of the external `mcmc`
module (not under this repository's sources) loads its resumption cursor from
the persisted log — a chain with no rows has `start_key = -1` and cursor `0`
at the caller-supplied starting vector; a chain whose log already has rows
resumes at the last written row (its key, local step index and vector). -/
def chainFromLog {D : ℕ} (nchain nsteps : ℕ) (sv : Vec D)
    (rows : List (Row D)) : Chain D :=
  match rows.getLast? with
  | none => ⟨nchain, nsteps, -1, 0, sv⟩
  | some row => ⟨nchain, nsteps, (row.key : ℤ), row.step, row.vec⟩

/-- Embeds extractor.py lines 268-269: the first (amplitude) component of the
starting vector is multiplied by `np.max(spectrum.data) / np.max(sim)`
whenever the simulated model's maximum is positive; `dataMax` stands for the
former maximum and `simMax` for the latter. -/
noncomputable def rescaleAmp {D : ℕ} [NeZero D] (dataMax simMax : ℝ)
    (v : Vec D) : Vec D :=
  if simMax > 0 then Function.update v 0 (v 0 * (dataMax / simMax)) else v

/-- Embeds the initialisation of `Extractor_MCMC.mcmc` (extractor.py lines
258-272): a brand-new chain (`start_key == -1`) starts from a feasible draw
`initDraw` (the result of the rejection loop of lines 262-265, taken as an
input); a resumed chain starts from `chain.start_vec` and advances its cursor
by one.  In both cases the amplitude is then rescaled and the cost of the
adjusted vector recomputed by the cost callable (line 271).  Returns the
starting state `(vec1, chisq1)` and the first loop index. -/
noncomputable def mcmcInit {D : ℕ} [NeZero D] (chisqFn : Vec D → ℝ)
    (dataMax : ℝ) (simMaxF : Vec D → ℝ) (ch : Chain D) (initDraw : Vec D) :
    (Vec D × ℝ) × ℕ :=
  ((rescaleAmp dataMax
      (simMaxF (if ch.start_key = -1 then initDraw else ch.start_vec))
      (if ch.start_key = -1 then initDraw else ch.start_vec),
    chisqFn (rescaleAmp dataMax
      (simMaxF (if ch.start_key = -1 then initDraw else ch.start_vec))
      (if ch.start_key = -1 then initDraw else ch.start_vec))),
   if ch.start_key = -1 then ch.start_index else ch.start_index + 1)

/-- Embeds `Extractor_MCMC.mcmc` (extractor.py lines 256-318): initialise the
starting state and cursor, then run the walk up to local index `nsteps - 1`. -/
noncomputable def mcmc {D : ℕ} [NeZero D] (low high : Vec D)
    (chisqFn : Vec D → ℝ) (dataMax : ℝ) (simMaxF : Vec D → ℝ)
    (rs : RandStream D) (ch : Chain D) (initDraw : Vec D) : List (Row D) :=
  mcmcWalk low high chisqFn ch.nchain ch.nsteps rs
    (mcmcInit chisqFn dataMax simMaxF ch initDraw).2
    (mcmcInit chisqFn dataMax simMaxF ch initDraw).1.1
    (mcmcInit chisqFn dataMax simMaxF ch initDraw).1.2

/-- C9: `prior` returns exactly `1.0` or `0.0`, never an intermediate value,
and returns `1.0` precisely when every component lies within its bounds
inclusively (the infeasibility comparisons of extractor.py line 207 are
strict, so a component exactly equal to a bound is feasible). -/
theorem prior_one_or_zero_iff_in_bounds {D : ℕ} (low high p : Vec D) :
    (prior low high p = 1.0 ∨ prior low high p = 0.0) ∧
    (prior low high p = 1.0 ↔ ∀ i, low i ≤ p i ∧ p i ≤ high i) := by
  unfold prior
  by_cases h : ∀ i : Fin D, ¬ (p i < low i ∨ p i > high i)
  · rw [if_pos h]
    refine ⟨Or.inl rfl, ⟨fun _ i => ?_, fun _ => rfl⟩⟩
    have hi := h i
    push_neg at hi
    exact hi
  · rw [if_neg h]
    refine ⟨Or.inr rfl, ⟨fun h01 => absurd h01 (by norm_num), fun hall => ?_⟩⟩
    exfalso
    apply h
    intro i
    push_neg
    exact hall i

/-- C1: a candidate is accepted if and only if
`exp(-0.5 * (chisq2 - chisq1)) > r` (extractor.py line 303), and for every
uniform draw `r` in `[0, 1)` a candidate whose cost does not exceed the
current cost is accepted, because the acceptance ratio is then at least 1. -/
theorem accept_iff_exp_gt_and_better_always_accepted (c1 c2 u : ℝ) :
    (accept c1 c2 u ↔ Real.exp (-0.5 * (c2 - c1)) > u) ∧
    (0 ≤ u → u < 1 → c2 ≤ c1 → accept c1 c2 u) := by
  refine ⟨Iff.rfl, fun _ hu1 hle => ?_⟩
  have h1 : (1 : ℝ) ≤ Real.exp (-0.5 * (c2 - c1)) := by
    rw [show (1 : ℝ) = Real.exp 0 from (Real.exp_zero).symm]
    apply Real.exp_le_exp.mpr
    nlinarith
  exact lt_of_lt_of_le hu1 h1

/-- Witness for C1 at `c1 = 1`, `c2 = 0`, `u = 1/2`. -/
theorem accept_better_witness :
    (0 : ℝ) ≤ 1 / 2 ∧ (1 / 2 : ℝ) < 1 ∧ (0 : ℝ) ≤ 1 ∧ accept 1 0 (1 / 2) :=
  ⟨by norm_num, by norm_num, by norm_num,
    (accept_iff_exp_gt_and_better_always_accepted 1 0 (1 / 2)).2
      (by norm_num) (by norm_num) (by norm_num)⟩

/-- C2: when the candidate's prior weight is at or below `1e-10`, the
candidate cost is the sentinel `1e20`, the whole step is independent of the
cost callable (so the expensive `chisq` is not consulted for this candidate),
and acceptance of the sentinel cost would require the uniform draw to fall
strictly below `exp(-0.5 * (1e20 - chisq1))`, an astronomically small
threshold for any realistic current cost: at or above it the candidate is
rejected. -/
theorem infeasible_candidate_sentinel {D : ℕ} (low high : Vec D)
    (chisqFnA chisqFnB : Vec D → ℝ) (nchain nsteps i : ℕ) (vec1 : Vec D)
    (chisq1 : ℝ) (vec2 : Vec D) (r : ℝ)
    (hp : prior low high vec2 ≤ (1e-10 : ℝ)) :
    candCost low high chisqFnA vec2 = (1e20 : ℝ) ∧
    mcmcStep low high chisqFnA nchain nsteps i vec1 chisq1 vec2 r =
      mcmcStep low high chisqFnB nchain nsteps i vec1 chisq1 vec2 r ∧
    ∀ u : ℝ, Real.exp (-0.5 * ((1e20 : ℝ) - chisq1)) ≤ u →
      ¬ accept chisq1 (1e20 : ℝ) u := by
  have hc : ∀ f : Vec D → ℝ, candCost low high f vec2 = (1e20 : ℝ) := by
    intro f
    unfold candCost
    rw [if_neg (not_lt.mpr hp)]
  refine ⟨hc chisqFnA, ?_, ?_⟩
  · unfold mcmcStep
    rw [hc chisqFnA, hc chisqFnB]
  · intro u hu
    unfold accept
    exact not_lt.mpr hu

/-- Witness for C2 at a one-dimensional out-of-bounds candidate. -/
theorem infeasible_candidate_sentinel_witness :
    prior (fun _ : Fin 1 => (0 : ℝ)) (fun _ => 1) (fun _ => 2) ≤ (1e-10 : ℝ) ∧
    candCost (fun _ : Fin 1 => (0 : ℝ)) (fun _ => 1) (fun _ => 0) (fun _ => 2) =
      (1e20 : ℝ) := by
  have hp : prior (fun _ : Fin 1 => (0 : ℝ)) (fun _ => 1) (fun _ => 2) ≤
      (1e-10 : ℝ) := by
    unfold prior
    rw [if_neg]
    · norm_num
    · push_neg
      exact ⟨0, Or.inr (by norm_num)⟩
  exact ⟨hp,
    (infeasible_candidate_sentinel (fun _ => 0) (fun _ => 1) (fun _ => 0)
      (fun _ => 0) 0 1 0 (fun _ => 0) 0 (fun _ => 2) 0 hp).1⟩

/-- C3: every iteration of the walk appends exactly one row (the walk over
`range(start, nsteps)` yields `nsteps - start` rows whose recorded local
steps are exactly those indices in order), each row is keyed
`step + nchain * nsteps` (extractor.py line 310), that key is globally unique
across chains for local steps below `nsteps`, and each row carries the
post-decision state: the candidate vector and cost on acceptance, the
unchanged current vector and cost on rejection. -/
theorem step_rows_one_per_iteration_keyed {D : ℕ} (low high : Vec D)
    (chisqFn : Vec D → ℝ) (nchain nsteps : ℕ) (rs : RandStream D)
    (start : ℕ) (vec1 : Vec D) (chisq1 : ℝ) :
    (mcmcWalk low high chisqFn nchain nsteps rs start vec1 chisq1).length =
      nsteps - start ∧
    (mcmcWalk low high chisqFn nchain nsteps rs start vec1 chisq1).map Row.step =
      List.range' start (nsteps - start) ∧
    (∀ row ∈ mcmcWalk low high chisqFn nchain nsteps rs start vec1 chisq1,
      row.key = row.step + nchain * nsteps) ∧
    (∀ i1 c1 i2 c2 : ℕ, i1 < nsteps → i2 < nsteps →
      i1 + c1 * nsteps = i2 + c2 * nsteps → i1 = i2 ∧ c1 = c2) ∧
    ∀ (i : ℕ) (v v2 : Vec D) (c r : ℝ),
      (mcmcStep low high chisqFn nchain nsteps i v c v2 r).row.cost =
        (mcmcStep low high chisqFn nchain nsteps i v c v2 r).chisq ∧
      (mcmcStep low high chisqFn nchain nsteps i v c v2 r).row.vec =
        (mcmcStep low high chisqFn nchain nsteps i v c v2 r).vec ∧
      (accept c (candCost low high chisqFn v2) r →
        (mcmcStep low high chisqFn nchain nsteps i v c v2 r).vec = v2 ∧
        (mcmcStep low high chisqFn nchain nsteps i v c v2 r).chisq =
          candCost low high chisqFn v2) ∧
      (¬ accept c (candCost low high chisqFn v2) r →
        (mcmcStep low high chisqFn nchain nsteps i v c v2 r).vec = v ∧
        (mcmcStep low high chisqFn nchain nsteps i v c v2 r).chisq = c) := by
  refine ⟨?_, ?_, ?_, ?_, ?_⟩
  · rw [mcmcWalk, mcmcLoop_length]
    simp
  · exact (mcmcLoop_steps low high chisqFn nchain nsteps rs _ _ _).1
  · exact (mcmcLoop_steps low high chisqFn nchain nsteps rs _ _ _).2
  · intro i1 c1 i2 c2 h1 h2 heq
    have hn : 0 < nsteps := lt_of_le_of_lt (Nat.zero_le _) h1
    have hm := congrArg (· % nsteps) heq
    simp only [Nat.add_mul_mod_self_right] at hm
    rw [Nat.mod_eq_of_lt h1, Nat.mod_eq_of_lt h2] at hm
    have hd := congrArg (· / nsteps) heq
    simp only [] at hd
    rw [Nat.add_mul_div_right _ _ hn, Nat.add_mul_div_right _ _ hn,
      Nat.div_eq_of_lt h1, Nat.div_eq_of_lt h2] at hd
    omega
  · intro i v v2 c r
    unfold mcmcStep
    by_cases h : accept c (candCost low high chisqFn v2) r
    · rw [if_pos h]
      exact ⟨rfl, rfl, fun _ => ⟨rfl, rfl⟩, fun hn => absurd h hn⟩
    · rw [if_neg h]
      exact ⟨rfl, rfl, fun ha => absurd ha h, fun _ => ⟨rfl, rfl⟩⟩

/-- Witness for C3: the key-uniqueness conjunct applied at
`nsteps = 1`, `i1 = i2 = 0`, `c1 = c2 = 0`. -/
theorem step_rows_witness :
    (0 : ℕ) < 1 ∧ 0 + 0 * 1 = 0 + 0 * 1 ∧ (0 : ℕ) = 0 ∧ (0 : ℕ) = 0 := by
  have h := (step_rows_one_per_iteration_keyed (fun _ : Fin 1 => (0 : ℝ))
    (fun _ => 1) (fun _ => 0) 0 1 ⟨fun _ v => v, fun _ => 0⟩ 0
    (fun _ => 0) 0).2.2.2.1 0 0 0 0 (by norm_num) (by norm_num) rfl
  exact ⟨by norm_num, rfl, h.1, h.2⟩

/-- C4 (amended): for a chain whose log already holds `k` rows (last row at
local step `k - 1`), the resumed walk performs exactly `nsteps - k` further
iterations producing rows with local steps `k .. nsteps - 1` (none at all
when `k ≥ nsteps`), and it restarts from the last written row's vector with
its amplitude component rescaled (extractor.py lines 268-269) and with the
cost recomputed by the cost callable on that adjusted vector (line 271) —
not from the persisted state and cost verbatim. -/
theorem resume_produces_remaining_rows {D : ℕ} [NeZero D] (low high : Vec D)
    (chisqFn : Vec D → ℝ) (dataMax : ℝ) (simMaxF : Vec D → ℝ)
    (rs : RandStream D) (nchain nsteps : ℕ) (sv initDraw : Vec D)
    (rows : List (Row D)) (lastRow : Row D) (k : ℕ)
    (_hk : rows.length = k) (hlast : rows.getLast? = some lastRow)
    (hstep : lastRow.step = k - 1) (hkpos : 0 < k) :
    (mcmcInit chisqFn dataMax simMaxF (chainFromLog nchain nsteps sv rows)
        initDraw).2 = k ∧
    (mcmcInit chisqFn dataMax simMaxF (chainFromLog nchain nsteps sv rows)
        initDraw).1.1 = rescaleAmp dataMax (simMaxF lastRow.vec) lastRow.vec ∧
    (mcmcInit chisqFn dataMax simMaxF (chainFromLog nchain nsteps sv rows)
        initDraw).1.2 =
      chisqFn (rescaleAmp dataMax (simMaxF lastRow.vec) lastRow.vec) ∧
    (mcmc low high chisqFn dataMax simMaxF rs
        (chainFromLog nchain nsteps sv rows) initDraw).length = nsteps - k ∧
    (mcmc low high chisqFn dataMax simMaxF rs
        (chainFromLog nchain nsteps sv rows) initDraw).map Row.step =
      List.range' k (nsteps - k) ∧
    (nsteps ≤ k →
      mcmc low high chisqFn dataMax simMaxF rs
        (chainFromLog nchain nsteps sv rows) initDraw = []) := by
  have hch : chainFromLog nchain nsteps sv rows =
      ⟨nchain, nsteps, (lastRow.key : ℤ), lastRow.step, lastRow.vec⟩ := by
    unfold chainFromLog
    rw [hlast]
  have hkey : ¬ ((lastRow.key : ℤ) = -1) := by omega
  have hinit : mcmcInit chisqFn dataMax simMaxF
      (chainFromLog nchain nsteps sv rows) initDraw =
      ((rescaleAmp dataMax (simMaxF lastRow.vec) lastRow.vec,
        chisqFn (rescaleAmp dataMax (simMaxF lastRow.vec) lastRow.vec)),
       k) := by
    rw [hch]
    unfold mcmcInit
    simp only [if_neg hkey]
    have : lastRow.step + 1 = k := by omega
    rw [this]
  refine ⟨by rw [hinit], by rw [hinit], by rw [hinit], ?_, ?_, ?_⟩
  · unfold mcmc
    rw [hinit, hch, mcmcWalk, mcmcLoop_length]
    simp
  · unfold mcmc
    rw [hinit, hch]
    exact (mcmcLoop_steps low high chisqFn nchain nsteps rs _ _ _).1
  · intro hle
    unfold mcmc
    rw [hinit, hch, mcmcWalk]
    have : nsteps - k = 0 := by omega
    rw [this]
    rfl

/-- Counterexample for C4 as stated: a one-dimensional chain resumed from a
log whose last row has vector `[1]` and cost `5`, with `max(data) = 3` and
`max(sim) = 1`, restarts at vector `[3]` with recomputed cost `3` — not at
the last written row's state `[1]` and cost `5`. -/
theorem resume_not_from_last_state_counterexample :
    (mcmcInit (fun v : Vec 1 => v 0) 3 (fun _ => 1)
        (chainFromLog 0 2 (fun _ => 0) [⟨0, 0, 5, fun _ => 1⟩])
        (fun _ => 0)).1.1 0 = 3 ∧
    (mcmcInit (fun v : Vec 1 => v 0) 3 (fun _ => 1)
        (chainFromLog 0 2 (fun _ => 0) [⟨0, 0, 5, fun _ => 1⟩])
        (fun _ => 0)).1.2 = 3 ∧
    (⟨0, 0, 5, fun _ => 1⟩ : Row 1).vec 0 = 1 ∧
    (⟨0, 0, 5, fun _ => 1⟩ : Row 1).cost = 5 ∧
    (3 : ℝ) ≠ 1 ∧ (3 : ℝ) ≠ 5 := by
  have hch : chainFromLog (D := 1) 0 2 (fun _ => (0 : ℝ))
      [⟨0, 0, 5, fun _ => 1⟩] = ⟨0, 2, ((0 : ℕ) : ℤ), 0, fun _ => 1⟩ := rfl
  have hresc : rescaleAmp (D := 1) 3 1 (fun _ => 1) = fun _ => 3 := by
    unfold rescaleAmp
    rw [if_pos (by norm_num)]
    funext i
    have h1 : i = 0 := Subsingleton.elim i 0
    rw [h1, Function.update_same]
    norm_num
  have hinit : (mcmcInit (fun v : Vec 1 => v 0) 3 (fun _ => 1)
      (chainFromLog 0 2 (fun _ => 0) [⟨0, 0, 5, fun _ => 1⟩])
      (fun _ => 0)).1.1 = fun _ => (3 : ℝ) := by
    rw [hch]
    unfold mcmcInit
    simp only [if_neg (by omega : ¬ (((0 : ℕ) : ℤ) = -1))]
    exact hresc
  refine ⟨?_, ?_, rfl, rfl, by norm_num, by norm_num⟩
  · rw [hinit]
  · show (fun v : Vec 1 => v 0) (mcmcInit (fun v : Vec 1 => v 0) 3
      (fun _ => 1) (chainFromLog 0 2 (fun _ => 0) [⟨0, 0, 5, fun _ => 1⟩])
      (fun _ => 0)).1.1 = 3
    rw [hinit]

/-- Witness for the amended C4 at a concrete one-row log: the resumed cursor
is `k = 1`. -/
theorem resume_produces_remaining_rows_witness :
    ([⟨0, 0, 5, fun _ => 1⟩] : List (Row 1)).length = 1 ∧
    ([⟨0, 0, 5, fun _ => 1⟩] : List (Row 1)).getLast? =
      some ⟨0, 0, 5, fun _ => 1⟩ ∧
    (⟨0, 0, 5, fun _ => (1 : ℝ)⟩ : Row 1).step = 1 - 1 ∧ 0 < 1 ∧
    (mcmcInit (fun v : Vec 1 => v 0) 3 (fun _ => 1)
        (chainFromLog 0 2 (fun _ => 0) [⟨0, 0, 5, fun _ => 1⟩])
        (fun _ => 0)).2 = 1 :=
  ⟨rfl, rfl, rfl, by norm_num,
    (resume_produces_remaining_rows (fun _ => 0) (fun _ => 1)
      (fun v : Vec 1 => v 0) 3 (fun _ => 1) ⟨fun _ v => v, fun _ => 0⟩ 0 2
      (fun _ => 0) (fun _ => 0) [⟨0, 0, 5, fun _ => 1⟩] ⟨0, 0, 5, fun _ => 1⟩
      1 rfl rfl rfl (by norm_num)).1⟩

/-- C10: before the walk begins, for a brand-new chain
(`start_key = -1`) and for a resumed one alike, the starting vector's first
(amplitude) component is multiplied by `max(data) / max(sim)` whenever the
simulated model's maximum is positive (and the vector is left unchanged
otherwise); consequently there is a resumed chain whose walk does not restart
at the state recorded in its last persisted row. -/
theorem start_amplitude_rescaled {D : ℕ} [NeZero D] (chisqFn : Vec D → ℝ)
    (dataMax : ℝ) (simMaxF : Vec D → ℝ) (ch : Chain D) (initDraw : Vec D) :
    (ch.start_key = -1 →
      (simMaxF initDraw > 0 →
        (mcmcInit chisqFn dataMax simMaxF ch initDraw).1.1 0 =
          initDraw 0 * (dataMax / simMaxF initDraw) ∧
        ∀ i, i ≠ 0 →
          (mcmcInit chisqFn dataMax simMaxF ch initDraw).1.1 i = initDraw i) ∧
      (¬ simMaxF initDraw > 0 →
        (mcmcInit chisqFn dataMax simMaxF ch initDraw).1.1 = initDraw)) ∧
    (ch.start_key ≠ -1 →
      (simMaxF ch.start_vec > 0 →
        (mcmcInit chisqFn dataMax simMaxF ch initDraw).1.1 0 =
          ch.start_vec 0 * (dataMax / simMaxF ch.start_vec) ∧
        ∀ i, i ≠ 0 →
          (mcmcInit chisqFn dataMax simMaxF ch initDraw).1.1 i =
            ch.start_vec i) ∧
      (¬ simMaxF ch.start_vec > 0 →
        (mcmcInit chisqFn dataMax simMaxF ch initDraw).1.1 = ch.start_vec)) ∧
    ∃ (ch' : Chain 1) (f : Vec 1 → ℝ) (dM : ℝ) (sM : Vec 1 → ℝ)
      (idr : Vec 1), ch'.start_key ≠ -1 ∧
        (mcmcInit f dM sM ch' idr).1.1 ≠ ch'.start_vec := by
  have hgen : ∀ (v : Vec D), (simMaxF v > 0 →
      rescaleAmp dataMax (simMaxF v) v 0 = v 0 * (dataMax / simMaxF v) ∧
      ∀ i, i ≠ 0 → rescaleAmp dataMax (simMaxF v) v i = v i) ∧
      (¬ simMaxF v > 0 → rescaleAmp dataMax (simMaxF v) v = v) := by
    intro v
    constructor
    · intro hpos
      unfold rescaleAmp
      rw [if_pos hpos]
      exact ⟨Function.update_same _ _ _,
        fun i hi => Function.update_noteq hi _ _⟩
    · intro hneg
      unfold rescaleAmp
      rw [if_neg hneg]
  refine ⟨?_, ?_, ?_⟩
  · intro hnew
    unfold mcmcInit
    rw [if_pos hnew]
    exact hgen initDraw
  · intro hres
    unfold mcmcInit
    rw [if_neg hres]
    exact hgen ch.start_vec
  · refine ⟨⟨0, 2, 0, 0, fun _ => 1⟩, fun _ => 0, 7, fun _ => 1, fun _ => 0,
      by norm_num, ?_⟩
    intro h
    have h0 := congrFun h 0
    norm_num [mcmcInit, rescaleAmp, Function.update_same] at h0

/-- Witness for C10: the resumed branch at a concrete chain with
`start_key = 0`, `start_vec = [2]`, `max(data) = 6`, `max(sim) = 2`. -/
theorem start_amplitude_rescaled_witness :
    (((⟨0, 5, 0, 0, fun _ => 2⟩ : Chain 1).start_key ≠ -1) ∧
      ((fun _ : Vec 1 => (2 : ℝ)) (fun _ => 2) > 0)) ∧
    (mcmcInit (fun _ => 0) 6 (fun _ : Vec 1 => (2 : ℝ))
        ⟨0, 5, 0, 0, fun _ => 2⟩ (fun _ => 0)).1.1 0 = 2 * (6 / 2) := by
  have h := ((start_amplitude_rescaled (fun _ : Vec 1 => (0 : ℝ)) 6
    (fun _ : Vec 1 => (2 : ℝ)) ⟨0, 5, 0, 0, fun _ => 2⟩ (fun _ => 0)).2.1
    (by norm_num) |>.1 (by norm_num)).1
  exact ⟨⟨by norm_num, by norm_num⟩, h⟩

/-- Modelled from the spec: `Chains.check_completness` of the external `mcmc`
module (not under this repository's sources) inspects the persisted row log
and reports whether all `nchains` chains already have `nsteps` rows;
`rowCount c` is the number of persisted rows of chain `c`. -/
def check_completness (nchains nsteps : ℕ) (rowCount : ℕ → ℕ) : Prop :=
  ∀ c, c < nchains → nsteps ≤ rowCount c

/-- Outcome of one `run_mcmc` invocation: the per-chain row counts after the
call, how many `Chain` objects were constructed, and whether a worker pool
was dispatched. -/
structure RunOutcome where
  rowCounts : ℕ → ℕ
  chainsCreated : ℕ
  poolDispatched : Bool

/-- Embeds `Extractor_MCMC.run_mcmc` (extractor.py lines 320-335): when the
completeness check fails, one `Chain` object per index is constructed and a
pool of `nchains` workers maps `mcmc` over them (the sampling's effect on the
row log is abstracted as `sampler`); when the check reports complete, no
`Chain` is created and no pool is dispatched.  The posterior summary (lines
336-348) is rebuilt from the resulting log in both cases. -/
noncomputable def run_mcmc (nchains nsteps : ℕ)
    (sampler : (ℕ → ℕ) → (ℕ → ℕ)) (rowCount : ℕ → ℕ) : RunOutcome :=
  if check_completness nchains nsteps rowCount then ⟨rowCount, 0, false⟩
  else ⟨sampler rowCount, nchains, true⟩

/-- C5: after an uninterrupted first invocation has brought all `nchains`
chains to `nsteps` rows, a second `run_mcmc` performs zero additional
sampling: the completeness check reports complete, no `Chain` objects are
created, no worker pool is dispatched, and the row counts are unchanged
(only the posterior summary is rebuilt, from the unchanged log). -/
theorem second_run_no_sampling (nchains nsteps : ℕ)
    (sampler : (ℕ → ℕ) → (ℕ → ℕ)) (rowCount : ℕ → ℕ)
    (hfull : ∀ c, c < nchains → rowCount c = nsteps) :
    check_completness nchains nsteps rowCount ∧
    run_mcmc nchains nsteps sampler rowCount = ⟨rowCount, 0, false⟩ := by
  have hc : check_completness nchains nsteps rowCount :=
    fun c hcn => le_of_eq (hfull c hcn).symm
  refine ⟨hc, ?_⟩
  unfold run_mcmc
  rw [if_pos hc]

/-- Witness for C5 at one chain already holding its two configured rows. -/
theorem second_run_no_sampling_witness :
    (∀ c, c < 1 → (fun _ : ℕ => 2) c = 2) ∧
    run_mcmc 1 2 id (fun _ => 2) = ⟨fun _ => 2, 0, false⟩ :=
  ⟨fun _ _ => rfl,
    (second_run_no_sampling 1 2 id (fun _ => 2) (fun _ _ => rfl)).2⟩

/-- In-memory rows a chain has accumulated after the first `j` iterations of
its walk: `chain.newrow` (extractor.py line 310) only buffers rows in
memory. -/
noncomputable def memRows {D : ℕ} (low high : Vec D) (chisqFn : Vec D → ℝ)
    (nchain nsteps : ℕ) (rs : RandStream D) (start : ℕ) (vec1 : Vec D)
    (chisq1 : ℝ) (j : ℕ) : List (Row D) :=
  mcmcLoop low high chisqFn nchain nsteps rs
    ((List.range' start (nsteps - start)).take j) vec1 chisq1

/-- Embeds the flush discipline of `Extractor_MCMC.mcmc`: the on-disk row log
is appended to exactly once, by `chain.append2file` after the whole loop
finishes (extractor.py line 318; the per-step flush of line 313 is commented
out), so when the pool is terminated by an interrupt after `j` iterations
(line 335) the disk log is exactly what it was before the run started. -/
def diskOnInterrupt {D : ℕ} (diskBefore : List (Row D)) (_j : ℕ) :
    List (Row D) := diskBefore

/-- C6 (amended): an interrupt never corrupts the already-flushed log — the
disk content after `pool.terminate()` is exactly the pre-run content, so
every flushed row stays valid and a later call resumes from it — but a chain
does not lose at most one step: it loses all `min j (nsteps - start)` rows it
had accumulated in memory, because the walk flushes only once, after the
whole loop. -/
theorem interrupt_keeps_flushed_loses_buffered {D : ℕ} (low high : Vec D)
    (chisqFn : Vec D → ℝ) (nchain nsteps : ℕ) (rs : RandStream D)
    (start : ℕ) (vec1 : Vec D) (chisq1 : ℝ) (j : ℕ)
    (diskBefore : List (Row D)) :
    diskOnInterrupt diskBefore j = diskBefore ∧
    (memRows low high chisqFn nchain nsteps rs start vec1 chisq1 j).length =
      min j (nsteps - start) := by
  refine ⟨rfl, ?_⟩
  rw [memRows, mcmcLoop_length, List.length_take]
  simp

/-- Counterexample for C6 as stated: a fresh chain with three configured
steps interrupted after two iterations has two rows in memory and none on
disk, so two steps of progress are lost, not at most one. -/
theorem interrupt_at_most_one_step_counterexample :
    (memRows (fun _ : Fin 1 => (0 : ℝ)) (fun _ => 1) (fun _ => 0) 0 3
      ⟨fun _ v => v, fun _ => 0⟩ 0 (fun _ => 0) 0 2).length = 2 ∧
    diskOnInterrupt ([] : List (Row 1)) 2 = [] ∧ ¬ ((2 : ℕ) ≤ 1) := by
  refine ⟨?_, rfl, by norm_num⟩
  rw [memRows, mcmcLoop_length]
  rfl

/-- IEEE double values as numpy produces them for the cost callable: a finite
real, one of the two infinities, or NaN. -/
inductive FVal where
  | fin : ℝ → FVal
  | pinf : FVal
  | minf : FVal
  | nan : FVal

/-- IEEE subtraction, as numpy evaluates `chisq2 - chisq1`. -/
def FVal.sub : FVal → FVal → FVal
  | FVal.nan, _ => FVal.nan
  | _, FVal.nan => FVal.nan
  | FVal.fin a, FVal.fin b => FVal.fin (a - b)
  | FVal.fin _, FVal.pinf => FVal.minf
  | FVal.fin _, FVal.minf => FVal.pinf
  | FVal.pinf, FVal.fin _ => FVal.pinf
  | FVal.minf, FVal.fin _ => FVal.minf
  | FVal.pinf, FVal.minf => FVal.pinf
  | FVal.minf, FVal.pinf => FVal.minf
  | FVal.pinf, FVal.pinf => FVal.nan
  | FVal.minf, FVal.minf => FVal.nan

/-- IEEE multiplication by the finite negative constant `-0.5`. -/
def FVal.scaleNegHalf : FVal → FVal
  | FVal.fin a => FVal.fin (-0.5 * a)
  | FVal.pinf => FVal.minf
  | FVal.minf => FVal.pinf
  | FVal.nan => FVal.nan

/-- IEEE exponential as computed by `np.exp`: `exp(-inf)` underflows to `0`,
`exp(+inf)` is `+inf`, `exp(nan)` is NaN. -/
noncomputable def FVal.fexp : FVal → FVal
  | FVal.fin a => FVal.fin (Real.exp a)
  | FVal.pinf => FVal.pinf
  | FVal.minf => FVal.fin 0
  | FVal.nan => FVal.nan

/-- IEEE comparison of a value against the finite uniform draw `r`: any
comparison with NaN is false. -/
def FVal.gtR : FVal → ℝ → Prop
  | FVal.fin a, r => a > r
  | FVal.pinf, _ => True
  | FVal.minf, _ => False
  | FVal.nan, _ => False

/-- The acceptance test of extractor.py line 303 under IEEE semantics:
`np.exp(-0.5 * (chisq2 - chisq1)) > r` where the costs may be non-finite. -/
noncomputable def acceptF (chisq1 chisq2 : FVal) (r : ℝ) : Prop :=
  ((chisq2.sub chisq1).scaleNegHalf).fexp.gtR r

/-- A persisted row whose cost field is an IEEE value. -/
structure RowF (D : ℕ) where
  key : ℕ
  step : ℕ
  cost : FVal
  vec : Vec D

/-- One iteration of extractor.py lines 301-310 under IEEE cost semantics,
for a feasible candidate whose cost `chisq2` came back from the cost
callable. -/
noncomputable def mcmcStepF {D : ℕ} (nchain nsteps i : ℕ) (vec1 : Vec D)
    (chisq1 : FVal) (vec2 : Vec D) (chisq2 : FVal) (r : ℝ) :
    Vec D × FVal × RowF D :=
  if acceptF chisq1 chisq2 r then
    (vec2, chisq2, ⟨i + nchain * nsteps, i, chisq2, vec2⟩)
  else
    (vec1, chisq1, ⟨i + nchain * nsteps, i, chisq1, vec1⟩)

/-- C7: when the cost callable returns `+inf` or NaN for a feasible candidate
while the current cost is finite, the step is an automatic rejection for
every uniform draw `r ≥ 0`: `np.exp` of the ratio argument is `0` (after
underflow) or NaN, the `>` test is false, and the row written for the step
carries the unchanged current vector and the finite current cost. -/
theorem nonfinite_cost_auto_reject {D : ℕ} (nchain nsteps i : ℕ)
    (vec1 vec2 : Vec D) (c : ℝ) (chisq2 : FVal) (r : ℝ)
    (hnf : chisq2 = FVal.pinf ∨ chisq2 = FVal.nan) (hr : 0 ≤ r) :
    ¬ acceptF (FVal.fin c) chisq2 r ∧
    mcmcStepF nchain nsteps i vec1 (FVal.fin c) vec2 chisq2 r =
      (vec1, FVal.fin c, ⟨i + nchain * nsteps, i, FVal.fin c, vec1⟩) := by
  have hna : ¬ acceptF (FVal.fin c) chisq2 r := by
    rcases hnf with h | h
    · subst h
      show ¬ ((0 : ℝ) > r)
      exact not_lt.mpr hr
    · subst h
      exact fun h => h
  refine ⟨hna, ?_⟩
  unfold mcmcStepF
  rw [if_neg hna]

/-- Witness for C7 at current cost `0`, candidate cost `+inf`, draw `0`. -/
theorem nonfinite_cost_auto_reject_witness :
    (FVal.pinf = FVal.pinf ∨ FVal.pinf = FVal.nan) ∧ (0 : ℝ) ≤ 0 ∧
    ¬ acceptF (FVal.fin 0) FVal.pinf 0 :=
  ⟨Or.inl rfl, le_refl 0,
    (nonfinite_cost_auto_reject 0 1 0 (fun _ : Fin 1 => (0 : ℝ)) (fun _ => 0)
      0 FVal.pinf 0 (Or.inl rfl) (le_refl 0)).1⟩

/-- Embeds `np.random.seed(chain.nchain)` (extractor.py line 257): the random
stream a chain's walk consumes is the seed policy applied to the chain's own
index, fixed before any draw; the walk is a function of that stream alone. -/
noncomputable def chainRun {D : ℕ} (low high : Vec D) (chisqFn : Vec D → ℝ)
    (nsteps : ℕ) (policy : ℕ → RandStream D) (c : ℕ) (start : ℕ)
    (vec1 : Vec D) (chisq1 : ℝ) : List (Row D) :=
  mcmcWalk low high chisqFn c nsteps (policy c) start vec1 chisq1

/-- C8: two executions of the same chain index under seed policies that agree
at that index — in particular the same policy twice, or policies that differ
arbitrarily at every other index — produce identical row sequences: each
chain's draws are a deterministic function of its own index, and no chain
reads another chain's random-generator state. -/
theorem chain_seed_deterministic_isolated {D : ℕ} (low high : Vec D)
    (chisqFn : Vec D → ℝ) (nsteps : ℕ) (p1 p2 : ℕ → RandStream D) (c : ℕ)
    (start : ℕ) (vec1 : Vec D) (chisq1 : ℝ) (hp : p1 c = p2 c) :
    chainRun low high chisqFn nsteps p1 c start vec1 chisq1 =
      chainRun low high chisqFn nsteps p2 c start vec1 chisq1 := by
  unfold chainRun
  rw [hp]

/-- Witness for C8: chain `0` under two policies that agree at index `0` but
differ at index `1`. -/
theorem chain_seed_deterministic_witness :
    ((fun _ : ℕ => (⟨fun _ v => v, fun _ => 0⟩ : RandStream 1)) 0 =
      (fun c : ℕ => if c = 0 then (⟨fun _ v => v, fun _ => 0⟩ : RandStream 1)
        else ⟨fun _ v => v, fun _ => 1⟩) 0) ∧
    chainRun (fun _ : Fin 1 => (0 : ℝ)) (fun _ => 1) (fun _ => 0) 1
        (fun _ => ⟨fun _ v => v, fun _ => 0⟩) 0 0 (fun _ => 0) 0 =
      chainRun (fun _ : Fin 1 => (0 : ℝ)) (fun _ => 1) (fun _ => 0) 1
        (fun c => if c = 0 then ⟨fun _ v => v, fun _ => 0⟩
          else ⟨fun _ v => v, fun _ => 1⟩) 0 0 (fun _ => 0) 0 := by
  have hp : (fun _ : ℕ => (⟨fun _ v => v, fun _ => 0⟩ : RandStream 1)) 0 =
      (fun c : ℕ => if c = 0 then (⟨fun _ v => v, fun _ => 0⟩ : RandStream 1)
        else ⟨fun _ v => v, fun _ => 1⟩) 0 := by
    simp
  exact ⟨hp, chain_seed_deterministic_isolated (fun _ : Fin 1 => (0 : ℝ))
    (fun _ => 1) (fun _ => 0) 1 (fun _ => ⟨fun _ v => v, fun _ => 0⟩)
    (fun c => if c = 0 then ⟨fun _ v => v, fun _ => 0⟩
      else ⟨fun _ v => v, fun _ => 1⟩) 0 0 (fun _ => 0) 0 hp⟩

end Spectractor
